import Mathlib

/-!
Verification model of the `graphtransliterator` core (`core.py` and the
collaborator modules it uses).  Pure Python functions become executable Lean
functions; the mutable instance state touched by `transliterate`
(`_rule_keys`, `_input_tokens`) is threaded explicitly.  Python `dict`s become
association lists preserving insertion order; Python `set`s of tokens become
lists (only membership is ever used).  Rule costs, `math.log2(1 + 1/(1 + n))`
in the source, are modelled by the order-isomorphic rational `(n+2)/(n+1)`
(log2 is strictly monotone, so every comparison and equality of costs is
preserved); costs are only ever compared, never added.
-/

namespace Gtr

abbrev Token := String

abbrev TokenClass := String

/-- Transliteration rule, mirroring the `TransliterationRule` namedtuple.
`None` optional fields are modelled by the empty list (Python code only tests
truthiness and takes lengths of these fields). -/
structure TransliterationRule where
  production : String
  prev_classes : List TokenClass
  prev_tokens : List Token
  tokens : List Token
  next_tokens : List Token
  next_classes : List TokenClass
  cost : ℚ
  deriving DecidableEq, Inhabited, Repr

/-- On-match rule, mirroring the `OnMatchRule` namedtuple. -/
structure OnMatchRule where
  prev_classes : List TokenClass
  next_classes : List TokenClass
  production : String
  deriving DecidableEq, Inhabited, Repr

/-- Whitespace settings, mirroring the `WhitespaceRules` namedtuple. -/
structure WhitespaceRules where
  default : Token
  token_class : TokenClass
  consolidate : Bool
  deriving DecidableEq, Inhabited, Repr

/-- Ordered association-list lookup (Python `dict.get`). -/
def assocFind {α β : Type} [BEq α] (l : List (α × β)) (k : α) : Option β :=
  (l.find? (fun p => p.1 == k)).map (fun p => p.2)

/-- Ordered association-list `setdefault`-then-modify (Python
`d.setdefault(k, dflt)` followed by an update of `d[k]`); insertion order of
keys is preserved, as for a Python dict. -/
def assocUpdate {α β : Type} [BEq α] (l : List (α × β)) (k : α) (dflt : β)
    (f : β → β) : List (α × β) :=
  match l with
  | [] => [(k, f dflt)]
  | (k', v) :: rest =>
      if k' == k then (k', f v) :: rest else (k', v) :: assocUpdate rest k dflt f

/-- Classes of a token (`self.tokens[token]`); unknown tokens give `[]`. -/
def classesOf (tks : List (Token × List TokenClass)) (t : Token) :
    List TokenClass :=
  (assocFind tks t).getD []

/-- Token at a possibly negative index; negative and out-of-range indices give
`""` (they are unreachable behind the bounds checks of `_match_tokens`). -/
def tokenAt (tokens : List Token) (i : Int) : Token :=
  if i < 0 then "" else tokens.getD i.toNat ""

/-- `GraphTransliterator._match_tokens`: match literal tokens or token classes
against a window of the token list, with boundary checks. -/
def _match_tokens (tks : List (Token × List TokenClass)) (start_i : Int)
    (c_value : List String) (tokens : List Token)
    (check_prev check_next by_class : Bool) : Bool :=
  if check_prev && decide (start_i < 0) then false
  else if check_next && decide ((tokens.length : Int) < start_i + c_value.length)
  then false
  else
    (List.range c_value.length).all fun i =>
      if by_class then
        (classesOf tks (tokenAt tokens (start_i + i))).contains (c_value.getD i "")
      else tokenAt tokens (start_i + i) == c_value.getD i ""

/-- `_count_of_prev` from `core.py`. -/
def _count_of_prev (rule : TransliterationRule) : Nat :=
  rule.prev_classes.length + rule.prev_tokens.length

/-- `_count_of_curr_and_next` from `core.py`. -/
def _count_of_curr_and_next (rule : TransliterationRule) : Nat :=
  rule.tokens.length + rule.next_tokens.length + rule.next_classes.length

/-- `_count_of_tokens` from `core.py`. -/
def _count_of_tokens (rule : TransliterationRule) : Nat :=
  rule.prev_classes.length + rule.prev_tokens.length + rule.tokens.length
    + rule.next_tokens.length + rule.next_classes.length

/-- Modelled from the spec: the rule-cost function lives in the absent
collaborator module.  The in-source doctests show `cost(2 tokens) ≈ 0.415`
and `cost(1 token) ≈ 0.585`, i.e. `log2((n+2)/(n+1))` for total constraint
count `n`; we use the order-isomorphic rational `(n+2)/(n+1)` (strictly
decreasing in `n`: more constraints mean lower cost and higher priority). -/
def ruleCost (n : Nat) : ℚ := mkRat (n + 2) (n + 1)

/-- Build a rule from its fields, deriving cost from the constraint count. -/
def makeRule (production : String)
    (prev_classes prev_tokens tokens next_tokens next_classes : List String) :
    TransliterationRule :=
  { production := production
    prev_classes := prev_classes
    prev_tokens := prev_tokens
    tokens := tokens
    next_tokens := next_tokens
    next_classes := next_classes
    cost := ruleCost (prev_classes.length + prev_tokens.length + tokens.length
      + next_tokens.length + next_classes.length) }

/-- Stable insertion of a rule into a cost-sorted list (rules with equal or
smaller cost stay in front, like Python's stable `sorted`). -/
def insertRuleSorted (r : TransliterationRule) :
    List TransliterationRule → List TransliterationRule
  | [] => [r]
  | x :: xs =>
      if x.cost ≤ r.cost then x :: insertRuleSorted r xs else r :: x :: xs

/-- `SettingsSchema.sort_rules_by_cost`: stable sort of rules by ascending
cost (left-to-right insertion keeps the declared order of equal-cost
rules, like Python's stable `sorted`). -/
def sortRulesByCost (rules : List TransliterationRule) :
    List TransliterationRule :=
  rules.foldl (fun acc r => insertRuleSorted r acc) []

/-- Node kind of the matching graph. -/
inductive NodeType where
  | start
  | tokenNode
  | ruleNode
  deriving DecidableEq, Inhabited, Repr

/-- A node of the matching graph.  `cost` models the cost stored on the edge
from the node's unique parent (minimum cost of any rule through the node;
for rule nodes, the rule's own cost).  `token_children` / `rule_children` are
the builder's working data; `ordered_children` / `rules_children` model the
final `ordered_children` dict, with the reserved `"__rules__"` key split into
`rules_children`. -/
structure GraphNode where
  ntype : NodeType := NodeType.start
  token : Token := ""
  rule_key : Nat := 0
  rule : Option TransliterationRule := none
  accepting : Bool := false
  cost : ℚ := 1
  token_children : List (Token × Nat) := []
  rule_children : List Nat := []
  ordered_children : List (Token × List Nat) := []
  rules_children : List Nat := []
  deriving DecidableEq, Inhabited, Repr

/-- The matching graph (`DirectedGraph`): an arena of nodes rooted at index
0; edges are represented by the child lists stored on each node (each node
has a unique parent, so per-edge data lives on the child). -/
structure DirectedGraph where
  node : List GraphNode
  deriving DecidableEq, Inhabited, Repr

/-- Replace node `i` by `f` of its current value. -/
def updateNode (g : DirectedGraph) (i : Nat) (f : GraphNode → GraphNode) :
    DirectedGraph :=
  { node := g.node.set i (f (g.node.getD i default)) }

/-- Modelled from the spec: path insertion of the graph builder (absent
collaborator module).  Walks a rule's token sequence from `parent`, reusing
an existing token child for a shared prefix (updating its edge cost to the
minimum of the rules through it) and appending a fresh token node otherwise
(spec section 4.1: shared-prefix reuse, cheaper rules preferred at every
branch).  Returns the graph and the key of the path's last node. -/
def newTokenNode (t : Token) (cost : ℚ) : GraphNode :=
  { ntype := NodeType.tokenNode, token := t, cost := cost }

def addTokenPath : DirectedGraph → Nat → List Token → ℚ → DirectedGraph × Nat
  | g, parent, [], _ => (g, parent)
  | g, parent, t :: rest, cost =>
    match assocFind (g.node.getD parent default).token_children t with
    | some child =>
        let g' := updateNode g child (fun n => { n with cost := min n.cost cost })
        addTokenPath g' child rest cost
    | none =>
        let childKey := g.node.length
        let g' : DirectedGraph := { node := g.node ++ [newTokenNode t cost] }
        let g'' := updateNode g' parent
          (fun n => { n with token_children := n.token_children ++ [(t, childKey)] })
        addTokenPath g'' childKey rest cost

/-- Modelled from the spec: insert one rule into the graph under construction
(absent collaborator module).  The rule's token path is inserted from the
Start node and terminated by a dedicated accepting rule node carrying the
rule and its key (spec section 4.1). -/
def newRuleNode (rule_key : Nat) (r : TransliterationRule) : GraphNode :=
  { ntype := NodeType.ruleNode, rule_key := rule_key, rule := some r,
    accepting := true, cost := r.cost }

def insertRule (g : DirectedGraph) (rule_key : Nat) (r : TransliterationRule) :
    DirectedGraph :=
  let p := addTokenPath g 0 r.tokens r.cost
  let leafKey := p.1.node.length
  let g2 : DirectedGraph := { node := p.1.node ++ [newRuleNode rule_key r] }
  updateNode g2 p.2 (fun n => { n with rule_children := n.rule_children ++ [leafKey] })

/-- Edge cost of the node with key `k` (cost stored on the edge from its
parent). -/
def nodeCost (g : DirectedGraph) (k : Nat) : ℚ :=
  (g.node.getD k default).cost

/-- Stable insertion of a node key into a list sorted by ascending edge
cost. -/
def insertByCost (g : DirectedGraph) (k : Nat) : List Nat → List Nat
  | [] => [k]
  | x :: xs =>
      if nodeCost g x ≤ nodeCost g k then x :: insertByCost g k xs
      else k :: x :: xs

/-- Stable sort of node keys by ascending edge cost (left-to-right
insertion, like Python's stable `sorted`). -/
def sortKeysByCost (g : DirectedGraph) (ks : List Nat) : List Nat :=
  ks.foldl (fun acc k => insertByCost g k acc) []

/-- Modelled from the spec: the final ordering pass of the graph builder
(absent collaborator module).  Per spec sections 3 and 4.1 the query for a
token prefix must reach the nodes of all rules consistent with that prefix,
cheaper rules preferred at every branch: each token key maps to the token
child together with the node's accepting rule children (they may also match
when deeper tokens do), sorted by ascending edge cost, and the reserved
`"__rules__"` entry holds the rule children alone, sorted by cost.  The
in-source doctests (`match_at`, `dumps`) pin this shape: with rules `a` and
`a a`, `match_at(1, tokenize("aa"), match_all=True)` is `[0, 1]`. -/
def orderChildren (g : DirectedGraph) : DirectedGraph :=
  { node := g.node.map fun n =>
      { n with
        rules_children := sortKeysByCost g n.rule_children
        ordered_children := n.token_children.map
          (fun p => (p.1, sortKeysByCost g (p.2 :: n.rule_children))) } }

/-- Modelled from the spec: `_graph_from` (absent collaborator module).
Builds the matching graph from the cost-sorted rule list: a Start node, one
inserted path per rule in order, then the child-ordering pass. -/
def _graph_from (rules : List TransliterationRule) : DirectedGraph :=
  let init : DirectedGraph := { node := [{ ntype := NodeType.start }] }
  orderChildren (rules.enum.foldl (fun g p => insertRule g p.1 p.2) init)

/-- Constraint checks of `GraphTransliterator._match_constraints`, applied to
the rule carried by the matched rule node; `token_i` is the position right
after the consumed tokens.  The constraint dict stores exactly the nonempty
`prev_*`/`next_*` fields of the rule, and every present constraint must hold. -/
def ruleConstraintsOk (tks : List (Token × List TokenClass))
    (r : TransliterationRule) (token_i : Nat) (tokens : List Token) : Bool :=
  (if r.prev_tokens.isEmpty then true else
    _match_tokens tks
      ((token_i : Int) - r.tokens.length - r.prev_tokens.length)
      r.prev_tokens tokens true false false)
  && (if r.next_tokens.isEmpty then true else
    _match_tokens tks (token_i : Int) r.next_tokens tokens false true false)
  && (if r.prev_classes.isEmpty then true else
    _match_tokens tks
      ((token_i : Int) - r.tokens.length - r.prev_tokens.length
        - r.prev_classes.length)
      r.prev_classes tokens true false true)
  && (if r.next_classes.isEmpty then true else
    _match_tokens tks ((token_i : Int) + r.next_tokens.length)
      r.next_classes tokens false true true)

/-- `GraphTransliterator._match_constraints`: check the constraints on the
edge from `_source` to `target` (constraints exist only on edges into rule
nodes, and each rule node has a unique parent, so they are read off the
target's rule). -/
def _match_constraints (tks : List (Token × List TokenClass))
    (g : DirectedGraph) (_source target : Nat) (token_i : Nat)
    (tokens : List Token) : Bool :=
  match (g.node.getD target default).rule with
  | none => true
  | some r => ruleConstraintsOk tks r token_i tokens

/-- `_append_children` from `GraphTransliterator.match_at`: push the children
reachable from `node_key` for the token at `token_i` (or, if there is no
such token child, the reserved rule children) onto the stack, preserving
their ascending-cost order at the front (the source pushes them in reverse
onto a LIFO deque). -/
def _append_children (g : DirectedGraph) (tokens : List Token)
    (node_key token_i : Nat) (stack : List (Nat × Nat × Nat)) :
    List (Nat × Nat × Nat) :=
  let node := g.node.getD node_key default
  match assocFind node.ordered_children (tokens.getD token_i "") with
  | some (c :: cs) => ((c :: cs).map fun ck => (ck, node_key, token_i)) ++ stack
  | _ => (node.rules_children.map fun ck => (ck, node_key, token_i)) ++ stack

/-- Result of `match_at`: a single optional rule key, or the list of all
matching rule keys when `match_all` is set. -/
inductive MatchResult where
  | single : Option Nat → MatchResult
  | multi : List Nat → MatchResult
  deriving DecidableEq, Repr

/-- The stack-driven loop of `GraphTransliterator.match_at`.  `fuel` bounds
the number of iterations; `none` signals fuel exhaustion (never reached for
graphs whose child keys increase, see `matchLoop_total`). -/
def matchLoop (tks : List (Token × List TokenClass)) (g : DirectedGraph)
    (tokens : List Token) (match_all : Bool) :
    Nat → List (Nat × Nat × Nat) → List Nat → Option MatchResult
  | 0, _, _ => none
  | _ + 1, [], found =>
      some (if match_all then MatchResult.multi found.reverse
            else MatchResult.single none)
  | fuel + 1, (node_key, parent_key, token_i) :: rest, found =>
      let node := g.node.getD node_key default
      if node.accepting && _match_constraints tks g parent_key node_key token_i tokens
      then
        if match_all then
          matchLoop tks g tokens match_all fuel rest (node.rule_key :: found)
        else some (MatchResult.single (some node.rule_key))
      else
        let token_i' := if token_i < tokens.length - 1 then token_i + 1 else token_i
        matchLoop tks g tokens match_all fuel
          (_append_children g tokens node_key token_i' rest) found

/-- Largest length of any child list stored in the graph. -/
def maxChildLen (g : DirectedGraph) : Nat :=
  g.node.foldl
    (fun a n =>
      max a (max n.rules_children.length
        (n.ordered_children.foldl (fun b p => max b p.2.length) 0)))
    0

/-- Fuel that always suffices for `matchLoop` on well-formed graphs. -/
def fuelBound (g : DirectedGraph) : Nat :=
  (maxChildLen g + 1) ^ g.node.length

/-- The read-only state of a `GraphTransliterator` instance: everything
`__init__` stores except the per-call introspection fields. -/
structure GTCore where
  tokens : List (Token × List TokenClass)
  rules : List TransliterationRule
  whitespace : WhitespaceRules
  onmatch_rules : List OnMatchRule
  onmatch_rules_lookup : List (Token × List (Token × List Nat))
  tokens_by_class : List (TokenClass × List Token)
  graph : DirectedGraph
  tokenizer_pattern : List Token
  ignore_errors : Bool
  deriving DecidableEq, Inhabited, Repr

/-- A `GraphTransliterator` instance: the read-only core plus the stored
`check_ambiguity` flag and the mutable last-match introspection record
(`_rule_keys`, `_input_tokens`). -/
structure GraphTransliterator where
  core : GTCore
  check_ambiguity : Bool
  rule_keys : List Nat
  input_tokens : List Token
  deriving DecidableEq, Inhabited, Repr

/-- `GraphTransliterator.match_at`: match the best (least costly explored)
rule at `token_i`, or all matched rules in traversal order when `match_all`.
The explicit stack is seeded with the Start node's children at `token_i`. -/
def match_at (c : GTCore) (token_i : Nat) (tokens : List Token)
    (match_all : Bool) : Option MatchResult :=
  matchLoop c.tokens c.graph tokens match_all (fuelBound c.graph)
    (_append_children c.graph tokens 0 token_i []) []

/-- `match_at` in single-match mode, unwrapped to the optional rule key. -/
def match_at_single (c : GTCore) (token_i : Nat) (tokens : List Token) :
    Option (Option Nat) :=
  match match_at c token_i tokens false with
  | some (MatchResult.single k) => some k
  | _ => none

/-- The exceptions raised by tokenizing and transliterating. -/
inductive TErr where
  | unrecognizableInputToken
  | noMatchingRule
  deriving DecidableEq, Repr

instance exceptDecEq {ε α : Type} [DecidableEq ε] [DecidableEq α] :
    DecidableEq (Except ε α) := fun a b =>
  match a, b with
  | Except.ok x, Except.ok y =>
      if h : x = y then isTrue (by rw [h])
      else isFalse (by intro hc; cases hc; exact h rfl)
  | Except.error x, Except.error y =>
      if h : x = y then isTrue (by rw [h])
      else isFalse (by intro hc; cases hc; exact h rfl)
  | Except.ok _, Except.error _ => isFalse (by intro hc; cases hc)
  | Except.error _, Except.ok _ => isFalse (by intro hc; cases hc)

/-- Modelled from the spec: `_tokenizer_pattern_from` (absent collaborator
module) builds a regex alternation over the declared tokens sorted
longest-token-first (ties in declaration order), so the regex engine's
first-alternative match is the longest declared token at the position; the
pattern is modelled by that sorted token list. -/
def insTokenByLenDesc (t : Token) : List Token → List Token
  | [] => [t]
  | y :: ys => if t.length ≤ y.length then y :: insTokenByLenDesc t ys
      else t :: y :: ys

/-- Stable descending-length sort of the declared tokens (left-to-right
insertion, like Python's stable `sort`). -/
def sortTokensByLenDesc (tokens : List Token) : List Token :=
  tokens.foldl (fun acc t => insTokenByLenDesc t acc) []

/-- Modelled from the spec: `_tokenizer_pattern_from` (see
`sortTokensByLenDesc`). -/
def _tokenizer_pattern_from (tokens : List Token) : List Token :=
  sortTokensByLenDesc tokens

/-- The compiled tokenizer's `match` at the head of `input`: the first
pattern alternative (longest declared token first) that is a prefix of the
remaining input.  Tokens are nonempty strings; an empty token never
matches. -/
def tokMatch (pattern : List Token) (input : List Char) : Option Token :=
  pattern.find? (fun t => !t.data.isEmpty && t.data.isPrefixOf input)

/-- `is_whitespace` from `GraphTransliterator.tokenize`. -/
def is_whitespace (c : GTCore) (t : Token) : Bool :=
  (classesOf c.tokens t).contains c.whitespace.token_class

/-- The scanning loop of `GraphTransliterator.tokenize`, accumulating matched
tokens in reverse.  On an unmatchable character it raises
`UnrecognizableInputToken`, unless `ignore_errors` is set, in which case it
skips exactly one character.  `fuel` bounds the iterations; `none` marks
exhaustion, which never occurs from `tokenize` since every iteration
consumes at least one character and the fuel starts at the input length. -/
def tokenizeAux (c : GTCore) : Nat → List Char → Bool → List Token →
    Option (Except TErr (List Token))
  | _, [], _, acc => some (Except.ok acc.reverse)
  | 0, _ :: _, _, _ => none
  | fuel + 1, ch :: rest, prev_ws, acc =>
    match tokMatch c.tokenizer_pattern (ch :: rest) with
    | some t =>
        let remaining := (ch :: rest).drop t.data.length
        if is_whitespace c t then
          if prev_ws && c.whitespace.consolidate then
            tokenizeAux c fuel remaining prev_ws acc
          else tokenizeAux c fuel remaining true (t :: acc)
        else tokenizeAux c fuel remaining false (t :: acc)
    | none =>
        if c.ignore_errors then tokenizeAux c fuel rest prev_ws acc
        else some (Except.error TErr.unrecognizableInputToken)

/-- Pop trailing whitespace tokens while more than one token remains
(`tokenize`'s consolidation of trailing whitespace); operates on the
reversed token list. -/
def popTrailingWs (c : GTCore) : List Token → List Token
  | [] => []
  | [t] => [t]
  | t :: rest => if is_whitespace c t then popTrailingWs c rest else t :: rest

/-- `GraphTransliterator.tokenize`: scan the input, wrap it in the default
whitespace sentinels, and (when consolidating) strip trailing whitespace
down to the sentinels.  `some (ok toks)` is a returned token list,
`some (error e)` a raised exception; `none` (fuel exhaustion) is
unreachable. -/
def tokenize (c : GTCore) (input : String) :
    Option (Except TErr (List Token)) :=
  match tokenizeAux c input.data.length input.data true [] with
  | none => none
  | some (Except.error e) => some (Except.error e)
  | some (Except.ok body) =>
      let toks := c.whitespace.default :: body
      let toks :=
        if c.whitespace.consolidate then (popTrailingWs c toks.reverse).reverse
        else toks
      some (Except.ok (toks ++ [c.whitespace.default]))

/-- Modelled from the spec: `_onmatch_rules_lookup` (absent collaborator
module).  Per spec section 3, a mapping from the boundary-first token (whose
classes contain the rule's first `next_class`) to the boundary-preceding
token (whose classes contain the rule's last `prev_class`) to the list of
candidate on-match rule indices in declaration order. -/
def _onmatch_rules_lookup (tokens : List (Token × List TokenClass))
    (onmatch_rules : List OnMatchRule) :
    List (Token × List (Token × List Nat)) :=
  onmatch_rules.enum.foldl
    (fun acc p =>
      let prev_class := p.2.prev_classes.getLastD ""
      let next_class := p.2.next_classes.headD ""
      tokens.foldl
        (fun acc2 tp =>
          if tp.2.contains next_class then
            tokens.foldl
              (fun acc3 pp =>
                if pp.2.contains prev_class then
                  assocUpdate acc3 tp.1 []
                    (fun inner => assocUpdate inner pp.1 [] (fun xs => xs ++ [p.1]))
                else acc3)
              acc2
          else acc2)
        acc)
    []

/-- Modelled from the spec: `_tokens_by_class_of` (absent collaborator
module): invert the token-to-classes mapping into class-to-tokens, keys in
first-appearance order. -/
def _tokens_by_class_of (tokens : List (Token × List TokenClass)) :
    List (TokenClass × List Token) :=
  tokens.foldl
    (fun acc tp =>
      tp.2.foldl (fun acc2 cl => assocUpdate acc2 cl [] (fun ts => ts ++ [tp.1])) acc)
    []

/-- Try the candidate on-match rules in order; the first whose
`prev_classes`/`next_classes` windows match contributes its production
(`break` in the source), otherwise nothing is inserted. -/
def tryOnmatchRules (c : GTCore) (tokens : List Token) (token_i : Nat) :
    List Nat → String
  | [] => ""
  | i :: rest =>
      let om := c.onmatch_rules.getD i default
      if _match_tokens c.tokens ((token_i : Int) - om.prev_classes.length)
          om.prev_classes tokens true false true
        && _match_tokens c.tokens (token_i : Int) om.next_classes tokens
          false true true
      then om.production
      else tryOnmatchRules c tokens token_i rest

/-- The on-match insertion of `GraphTransliterator.transliterate`: look up
candidates by the token at the match start and the token preceding it, and
apply the first satisfied candidate's production. -/
def onmatchProduction (c : GTCore) (tokens : List Token) (token_i : Nat) :
    String :=
  if c.onmatch_rules.isEmpty then ""
  else
    let prev_t := tokens.getD (token_i - 1) ""
    let curr_t := tokens.getD token_i ""
    match assocFind c.onmatch_rules_lookup curr_t with
    | none => ""
    | some inner =>
        match assocFind inner prev_t with
        | none => ""
        | some idxs => tryOnmatchRules c tokens token_i idxs

/-- The main loop of `GraphTransliterator.transliterate`, threading the
position, the accumulating `_rule_keys` record and the output.  The result
is the final `_rule_keys` together with the outcome; outcome `none` means
the fuel ran out (the Python loop would not have terminated). -/
def translitLoop (c : GTCore) (tokens : List Token) :
    Nat → Nat → List Nat → String → List Nat × Option (Except TErr String)
  | 0, _, rks, _ => (rks, none)
  | fuel + 1, token_i, rks, output =>
      if token_i < tokens.length - 1 then
        match match_at_single c token_i tokens with
        | none => (rks, none)
        | some none =>
            if c.ignore_errors then translitLoop c tokens fuel (token_i + 1) rks output
            else (rks, some (Except.error TErr.noMatchingRule))
        | some (some rule_key) =>
            let rule := c.rules.getD rule_key default
            let ins := onmatchProduction c tokens token_i
            translitLoop c tokens fuel (token_i + rule.tokens.length)
              (rks ++ [rule_key]) (output ++ ins ++ rule.production)
      else (rks, some (Except.ok output))

/-- `GraphTransliterator.transliterate`, result only.  `some (ok out)` is a
returned output, `some (error e)` a raised exception, `none` divergence of
the source loop (impossible once every rule consumes at least one token). -/
def transliterate (c : GTCore) (input : String) : Option (Except TErr String) :=
  match tokenize c input with
  | none => none
  | some (Except.error e) => some (Except.error e)
  | some (Except.ok toks) => (translitLoop c toks (toks.length + 1) 1 [] "").2

/-- `GraphTransliterator.transliterate` with its state effect: the returned
instance records `_input_tokens` and the `_rule_keys` appended by the loop
(both untouched when `tokenize` itself raises, exactly as in the source);
all other instance fields are returned as they were. -/
def transliterateSt (gt : GraphTransliterator) (input : String) :
    GraphTransliterator × Option (Except TErr String) :=
  match tokenize gt.core input with
  | none => (gt, none)
  | some (Except.error e) => (gt, some (Except.error e))
  | some (Except.ok toks) =>
      let r := translitLoop gt.core toks (toks.length + 1) 1 [] ""
      ({ gt with input_tokens := toks, rule_keys := r.1 }, r.2)

/-- `_prev_tokens_possible` from `core.py`: possible preceding tokens of a
rule, one set per constrained position (class columns first, then literal
prev tokens as singletons). -/
def _prev_tokens_possible (rule : TransliterationRule)
    (tokens_by_class : List (TokenClass × List Token)) : List (List Token) :=
  rule.prev_classes.map (fun cl => (assocFind tokens_by_class cl).getD [])
    ++ rule.prev_tokens.map (fun t => [t])

/-- `_curr_and_next_tokens_possible` from `core.py`. -/
def _curr_and_next_tokens_possible (rule : TransliterationRule)
    (tokens_by_class : List (TokenClass × List Token)) : List (List Token) :=
  rule.tokens.map (fun t => [t]) ++ rule.next_tokens.map (fun t => [t])
    ++ rule.next_classes.map (fun cl => (assocFind tokens_by_class cl).getD [])

/-- `_tokens_possible` from `core.py`. -/
def _tokens_possible (rule : TransliterationRule)
    (tokens_by_class : List (TokenClass × List Token)) : List (List Token) :=
  _prev_tokens_possible rule tokens_by_class
    ++ _curr_and_next_tokens_possible rule tokens_by_class

/-- The possibility matrix of `check_for_ambiguity`: one row per rule over a
common width, left-padded with the universal token set up to the global
maximum of preceding positions and right-padded to the global width. -/
def ambMatrix (rules : List TransliterationRule) (all_tokens : List Token)
    (tokens_by_class : List (TokenClass × List Token)) :
    List (List (List Token)) :=
  let gmp := (rules.map _count_of_prev).foldl max 0
  let gmc := (rules.map _count_of_curr_and_next).foldl max 0
  let width := gmp + gmc
  rules.map fun rule =>
    let row := List.replicate (gmp - _count_of_prev rule) all_tokens
      ++ _tokens_possible rule tokens_by_class
    row ++ List.replicate (width - row.length) all_tokens

/-- `full_intersection` from `check_for_ambiguity`: column-wise intersection
of two rows, or `None` as soon as some column's intersection is empty. -/
def fullIntersection (a b : List (List Token)) : Option (List (List Token)) :=
  (a.zip b).foldr
    (fun p acc =>
      let i := p.1.filter (fun t => p.2.contains t)
      if i.isEmpty then none
      else match acc with
        | none => none
        | some l => some (i :: l))
    (some [])

/-- `covered_by` from `check_for_ambiguity`: every column of the
intersection is a subset of the corresponding column of `row`. -/
def coveredBy (inter row : List (List Token)) : Bool :=
  (List.range inter.length).all fun i =>
    ((inter.getD i []).filter (fun t => !(row.getD i []).contains t)).isEmpty

/-- `covered_by_less_costly` from `check_for_ambiguity`: some rule other
than the pair, of cost not exceeding the first rule's, covers the
intersection. -/
def coveredByLessCostly (rules : List TransliterationRule)
    (matrix : List (List (List Token))) (inter : List (List Token))
    (i_index j_index : Nat) : Bool :=
  (List.range rules.length).any fun r_i =>
    if r_i == i_index || r_i == j_index then false
    else if (rules.getD i_index default).cost < (rules.getD r_i default).cost
    then false
    else coveredBy inter (matrix.getD r_i [])

/-- The inner pair loop of `check_for_ambiguity` over the partners `js` of a
fixed rule `e`, exactly as in the source: an empty intersection executes
`break`, abandoning the remaining partners of `e`; a nonempty uncovered
intersection marks ambiguity and scanning continues. -/
def innerPairs (rules : List TransliterationRule)
    (matrix : List (List (List Token))) (e : Nat × TransliterationRule) :
    List (Nat × TransliterationRule) → Bool
  | [] => false
  | f :: rest =>
      match fullIntersection (matrix.getD e.1 []) (matrix.getD f.1 []) with
      | none => false
      | some inter =>
          (!coveredByLessCostly rules matrix inter e.1 f.1)
            || innerPairs rules matrix e rest

/-- The outer pair loop of `check_for_ambiguity` within one group. -/
def outerPairs (rules : List TransliterationRule)
    (matrix : List (List (List Token))) :
    List (Nat × TransliterationRule) → Bool
  | [] => false
  | e :: rest => innerPairs rules matrix e rest || outerPairs rules matrix rest

/-- `itertools.groupby` over the enumerated rules keyed by total constraint
count: runs of consecutive equal counts. -/
def groupRuns : List (Nat × TransliterationRule) →
    List (List (Nat × TransliterationRule))
  | [] => []
  | x :: xs =>
      match groupRuns xs with
      | [] => [[x]]
      | [] :: gs => [x] :: gs
      | (y :: ys) :: gs =>
          if _count_of_tokens x.2 == _count_of_tokens y.2 then
            (x :: y :: ys) :: gs
          else [x] :: (y :: ys) :: gs

/-- `GraphTransliterator.check_for_ambiguity`, faithful to the source
including the inner loop's `break` on an empty intersection: returns whether
any ambiguity was found (the source then raises
`AmbiguousTransliterationRulesException`). -/
def check_for_ambiguity (rules : List TransliterationRule)
    (all_tokens : List Token)
    (tokens_by_class : List (TokenClass × List Token)) : Bool :=
  if rules.isEmpty then false
  else
    let matrix := ambMatrix rules all_tokens tokens_by_class
    (groupRuns rules.enum).any fun grp => outerPairs rules matrix grp

/-- Modelled from the spec: the inner pair loop as the specification words
it ("if any column's intersection is empty, the pair cannot collide —
skip"), i.e. an empty intersection skips only that pair and the remaining
partners are still checked. -/
def innerPairsSpecSkip (rules : List TransliterationRule)
    (matrix : List (List (List Token))) (e : Nat × TransliterationRule) :
    List (Nat × TransliterationRule) → Bool
  | [] => false
  | f :: rest =>
      match fullIntersection (matrix.getD e.1 []) (matrix.getD f.1 []) with
      | none => innerPairsSpecSkip rules matrix e rest
      | some inter =>
          (!coveredByLessCostly rules matrix inter e.1 f.1)
            || innerPairsSpecSkip rules matrix e rest

/-- Modelled from the spec: the outer pair loop over the spec-worded inner
loop. -/
def outerPairsSpecSkip (rules : List TransliterationRule)
    (matrix : List (List (List Token))) :
    List (Nat × TransliterationRule) → Bool
  | [] => false
  | e :: rest =>
      innerPairsSpecSkip rules matrix e rest || outerPairsSpecSkip rules matrix rest

/-- Modelled from the spec: `check_for_ambiguity` with the spec-worded
skip-only-this-pair behaviour, for comparison with the source's `break`. -/
def check_for_ambiguity_spec_skip (rules : List TransliterationRule)
    (all_tokens : List Token)
    (tokens_by_class : List (TokenClass × List Token)) : Bool :=
  if rules.isEmpty then false
  else
    let matrix := ambMatrix rules all_tokens tokens_by_class
    (groupRuns rules.enum).any fun grp => outerPairsSpecSkip rules matrix grp

/-- `tokens_by_class or _tokens_by_class_of(tokens)` in `__init__`. -/
def tbcOrDefault (tokens : List (Token × List TokenClass))
    (tokens_by_class : List (TokenClass × List Token)) :
    List (TokenClass × List Token) :=
  if tokens_by_class.isEmpty then _tokens_by_class_of tokens
  else tokens_by_class

/-- The stored state built by `__init__` once the ambiguity check (if any)
has passed: derived fields that were not supplied (empty list / `none`
model Python's falsy `None` defaults) are recomputed, the rest is stored
verbatim; the introspection record starts empty. -/
def buildGT (tokens : List (Token × List TokenClass))
    (rules : List TransliterationRule) (whitespace : WhitespaceRules)
    (onmatch_rules : List OnMatchRule) (ignore_errors check_ambiguity : Bool)
    (onmatch_rules_lookup : List (Token × List (Token × List Nat)))
    (tokens_by_class : List (TokenClass × List Token))
    (graph : Option DirectedGraph) (tokenizer_pattern : List Token) :
    GraphTransliterator :=
  { core :=
      { tokens := tokens, rules := rules, whitespace := whitespace,
        onmatch_rules := onmatch_rules,
        onmatch_rules_lookup := if onmatch_rules.isEmpty then []
          else if onmatch_rules_lookup.isEmpty then
            _onmatch_rules_lookup tokens onmatch_rules
          else onmatch_rules_lookup,
        tokens_by_class := tbcOrDefault tokens tokens_by_class,
        graph := match graph with
          | some g => g
          | none => _graph_from rules,
        tokenizer_pattern := if tokenizer_pattern.isEmpty then
          _tokenizer_pattern_from (tokens.map Prod.fst) else tokenizer_pattern,
        ignore_errors := ignore_errors }
    check_ambiguity := check_ambiguity
    rule_keys := []
    input_tokens := [] }

/-- `GraphTransliterator.__init__` (with `GraphTransliteratorSchema`'s field
handling): runs the ambiguity check when `check_ambiguity` is set (a found
ambiguity raises, modelled by `Except.error`), otherwise stores the state
built by `buildGT`. -/
def mkGraphTransliterator (tokens : List (Token × List TokenClass))
    (rules : List TransliterationRule) (whitespace : WhitespaceRules)
    (onmatch_rules : List OnMatchRule) (ignore_errors check_ambiguity : Bool)
    (onmatch_rules_lookup : List (Token × List (Token × List Nat)))
    (tokens_by_class : List (TokenClass × List Token))
    (graph : Option DirectedGraph) (tokenizer_pattern : List Token) :
    Except Unit GraphTransliterator :=
  if check_ambiguity && check_for_ambiguity rules (tokens.map Prod.fst)
      (tbcOrDefault tokens tokens_by_class) then
    Except.error ()
  else
    Except.ok (buildGT tokens rules whitespace onmatch_rules ignore_errors
      check_ambiguity onmatch_rules_lookup tokens_by_class graph
      tokenizer_pattern)

/-- `GraphTransliterator.productions`. -/
def productions (c : GTCore) : List String :=
  c.rules.map (fun r => r.production)

/-- The `productions` argument of `pruned_of`: a bare string or a list. -/
inductive ProductionsArg where
  | str : String → ProductionsArg
  | list : List String → ProductionsArg
  deriving DecidableEq, Repr

/-- Python substring containment (`needle in hay` for `str`). -/
def isSubstrOf (needle hay : String) : Bool :=
  (List.range (hay.data.length + 1)).any fun i =>
    needle.data.isPrefixOf (hay.data.drop i)

/-- Python `production in productions` in `pruned_of`: list membership when
a list was passed, substring containment when a bare string was passed. -/
def prodMem (arg : ProductionsArg) (p : String) : Bool :=
  match arg with
  | ProductionsArg.str s => isSubstrOf p s
  | ProductionsArg.list l => l.contains p

/-- `GraphTransliterator.pruned_of`: filter out the rules whose production
is contained in the argument and rebuild a new instance from the original
initialization parameters (derived state is recomputed). -/
def pruned_of (gt : GraphTransliterator) (productions_arg : ProductionsArg) :
    Except Unit GraphTransliterator :=
  let pruned_rules := gt.core.rules.filter
    (fun r => !prodMem productions_arg r.production)
  mkGraphTransliterator gt.core.tokens pruned_rules gt.core.whitespace
    gt.core.onmatch_rules gt.core.ignore_errors gt.check_ambiguity [] [] none []

/-- The serialized form produced by `GraphTransliterator.dump` via
`GraphTransliteratorSchema`: the behaviour-relevant fields listed in the
schema's `Meta.fields`.  The `metadata` and version-string fields, which
play no role in transliteration, are not modelled; `ignore_errors` is not
in the schema's field list at all, which is what breaks the round trip for
instances with `ignore_errors` set. -/
structure DumpData where
  tokens : List (Token × List TokenClass)
  rules : List TransliterationRule
  whitespace : WhitespaceRules
  onmatch_rules : List OnMatchRule
  onmatch_rules_lookup : List (Token × List (Token × List Nat))
  tokens_by_class : List (TokenClass × List Token)
  graph : DirectedGraph
  tokenizer_pattern : List Token
  deriving DecidableEq, Repr

/-- `GraphTransliterator.dump`. -/
def dump (gt : GraphTransliterator) : DumpData :=
  { tokens := gt.core.tokens, rules := gt.core.rules,
    whitespace := gt.core.whitespace, onmatch_rules := gt.core.onmatch_rules,
    onmatch_rules_lookup := gt.core.onmatch_rules_lookup,
    tokens_by_class := gt.core.tokens_by_class, graph := gt.core.graph,
    tokenizer_pattern := gt.core.tokenizer_pattern }

/-- `GraphTransliterator.load` via
`GraphTransliteratorSchema.make_GraphTransliterator`: passes the serialized
fields through, sets `check_ambiguity` to false (no ambiguity re-check), and
leaves `ignore_errors` at the constructor default `False` (the dump format
does not carry it). -/
def load (d : DumpData) : Except Unit GraphTransliterator :=
  mkGraphTransliterator d.tokens d.rules d.whitespace d.onmatch_rules
    false false d.onmatch_rules_lookup d.tokens_by_class (some d.graph)
    d.tokenizer_pattern

/-- A rule matches at `token_i` (spec sections 4.2 and 4.3): its token
sequence occupies the window starting at `token_i` and each of its present
constraints holds for the windows around the match. -/
def ruleMatchesAt (c : GTCore) (r : TransliterationRule) (token_i : Nat)
    (tokens : List Token) : Bool :=
  r.tokens.isPrefixOf (tokens.drop token_i)
    && ruleConstraintsOk c.tokens r (token_i + r.tokens.length) tokens

/-- Unwrap a constructed instance (for concrete configurations whose
construction is known to succeed). -/
def getGT (e : Except Unit GraphTransliterator) : GraphTransliterator :=
  match e with
  | Except.ok g => g
  | Except.error _ => default

/-- The `a`/`a a` configuration of the `match_at` doctest: tokens `a` and
`' '` (whitespace class `wb`), rules `a → <A>` and `a a → <AA>`, consolidate
on. -/
def gtAA : GraphTransliterator := getGT (mkGraphTransliterator
  [("a", []), (" ", ["wb"])]
  (sortRulesByCost
    [makeRule "<A>" [] [] ["a"] [] [], makeRule "<AA>" [] [] ["a", "a"] [] []])
  { default := " ", token_class := "wb", consolidate := true }
  [] false true [] [] none [])

/-- Rules of the least-cost counterexample: `a b → V` (2 constraints),
`a <cb> <cc> → X` (3), `a b c <cw> → W` (4); sorted ascending by cost the
keys are `0 = W`, `1 = X`, `2 = V`. -/
def rulesCE : List TransliterationRule := sortRulesByCost
  [makeRule "V" [] [] ["a", "b"] [] [],
   makeRule "X" [] [] ["a"] [] ["cb", "cc"],
   makeRule "W" [] [] ["a", "b", "c"] [] ["cw"]]

/-- Instance for the least-cost counterexample. -/
def gtCE : GraphTransliterator := getGT (mkGraphTransliterator
  [("a", []), ("b", ["cb"]), ("c", ["cc"]), ("w", ["cw"]), ("z", []),
   (" ", ["wb"])]
  rulesCE
  { default := " ", token_class := "wb", consolidate := true }
  [] false true [] [] none [])

/-- Token list (with whitespace sentinels) for the least-cost
counterexample. -/
def toksCE : List Token := [" ", "a", "b", "c", "z", " "]

/-- The configuration of claim C2: tokens `a:[class1]`, `b:[class2]`,
`' ':[wb]`, rules `a → A`, `b → B`, `' ' → ' '`, on-match rule
`<class1> + <class2> → ","`, whitespace default `' '`, consolidate off. -/
def gtC2 : GraphTransliterator := getGT (mkGraphTransliterator
  [("a", ["class1"]), ("b", ["class2"]), (" ", ["wb"])]
  (sortRulesByCost
    [makeRule "A" [] [] ["a"] [] [], makeRule "B" [] [] ["b"] [] [],
     makeRule " " [] [] [" "] [] []])
  { default := " ", token_class := "wb", consolidate := false }
  [{ prev_classes := ["class1"], next_classes := ["class2"], production := "," }]
  false true [] [] none [])

/-- Error-handling configuration (from the repository's tests): rules
`a a → B2` and `b → b`, so a lone `a` has no matching rule; `ignore_errors`
off. -/
def gtB : GraphTransliterator := getGT (mkGraphTransliterator
  [("a", ["class1"]), ("b", ["class1"]), (" ", ["wb"])]
  (sortRulesByCost
    [makeRule "B2" [] [] ["a", "a"] [] [], makeRule "b" [] [] ["b"] [] []])
  { default := " ", token_class := "wb", consolidate := true }
  [] false true [] [] none [])

/-- Same configuration as `gtB` with `ignore_errors` on. -/
def gtBign : GraphTransliterator := getGT (mkGraphTransliterator
  [("a", ["class1"]), ("b", ["class1"]), (" ", ["wb"])]
  (sortRulesByCost
    [makeRule "B2" [] [] ["a", "a"] [] [], makeRule "b" [] [] ["b"] [] []])
  { default := " ", token_class := "wb", consolidate := true }
  [] true true [] [] none [])

/-- Pruning configuration: a single rule `a → A`. -/
def gtC4 : GraphTransliterator := getGT (mkGraphTransliterator
  [("a", ["class1"]), (" ", ["wb"])]
  (sortRulesByCost [makeRule "A" [] [] ["a"] [] []])
  { default := " ", token_class := "wb", consolidate := true }
  [] false true [] [] none [])

/-- Substring-pruning configuration: rules with productions `A`, `B` and
`AB`. -/
def gtC10 : GraphTransliterator := getGT (mkGraphTransliterator
  [("a", ["c1"]), ("b", ["c2"]), ("c", ["c3"]), (" ", ["wb"])]
  (sortRulesByCost
    [makeRule "A" [] [] ["a"] [] [], makeRule "B" [] [] ["b"] [] [],
     makeRule "AB" [] [] ["c"] [] []])
  { default := " ", token_class := "wb", consolidate := true }
  [] false true [] [] none [])

/-- Round-trip configuration with `ignore_errors` on. -/
def gtC5 : GraphTransliterator := getGT (mkGraphTransliterator
  [("a", ["class1"]), (" ", ["wb"])]
  (sortRulesByCost [makeRule "A" [] [] ["a"] [] []])
  { default := " ", token_class := "wb", consolidate := true }
  [] true true [] [] none [])

/-- The three-rule group of the ambiguity-checker claim: rules `a → X`,
`b → Y`, `a → Z`, all with one constraint (equal cost, a single group). -/
def rulesC3 : List TransliterationRule :=
  [makeRule "X" [] [] ["a"] [] [], makeRule "Y" [] [] ["b"] [] [],
   makeRule "Z" [] [] ["a"] [] []]

/-- Declared tokens for the ambiguity-checker claim. -/
def allTokensC3 : List Token := ["a", "b", " "]

/-- Token classes for the ambiguity-checker claim. -/
def tbcC3 : List (TokenClass × List Token) :=
  [("c1", ["a"]), ("c2", ["b"]), ("wb", [" "])]

/-- C1, counterexample: the universal least-cost guarantee of `match_at`
fails.  In the `gtCE` configuration at position 1 of the sentinel-bounded
token list `toksCE`, single-match `match_at` returns rule key 2 (production
`V`, cost 4/3) although rule 1 (production `X`, cost 5/4 < 4/3) also matches
there, and `match_all` returns `[2, 1]`, which is not ordered by ascending
cost. -/
theorem match_at_least_cost_fails :
    match_at_single gtCE.core 1 toksCE = some (some 2) ∧
    ruleMatchesAt gtCE.core (gtCE.core.rules.getD 1 default) 1 toksCE = true ∧
    (gtCE.core.rules.getD 1 default).cost <
      (gtCE.core.rules.getD 2 default).cost ∧
    match_at gtCE.core 1 toksCE true = some (MatchResult.multi [2, 1]) := by
  refine ⟨by decide, by decide, by decide, by decide⟩

/-- C1, amended: `match_at` explores each branch's children in
ascending-cost order, but the first successful match need not be the global
least-cost match; in particular, for rules `a → <A>` and `a a → <AA>`,
`match_at` at the position of the first `a` in the tokenization of `"aa"`
returns the key of `<AA>` (key 0), and with `match_all` returns
`[<AA> key, <A> key] = [0, 1]`. -/
theorem match_at_aa_example :
    tokenize gtAA.core "aa" = some (Except.ok [" ", "a", "a", " "]) ∧
    (gtAA.core.rules.getD 0 default).production = "<AA>" ∧
    (gtAA.core.rules.getD 1 default).production = "<A>" ∧
    match_at_single gtAA.core 1 [" ", "a", "a", " "] = some (some 0) ∧
    match_at gtAA.core 1 [" ", "a", "a", " "] true =
      some (MatchResult.multi [0, 1]) := by
  refine ⟨by decide, by decide, by decide, by decide, by decide⟩

/-- C2, counterexample: in the claimed configuration, `transliterate("a b")`
does not return `"A ,B"`, and the mechanism is visible in the model: `"a b"`
tokenizes with an interior whitespace token, the on-match lookup keyed by the
current token `b` holds only the previous token `a`, and looking up the
actual previous token `' '` in it misses, so no comma is inserted at the `b`
match. -/
theorem transliterate_c2_not_claimed :
    transliterate gtC2.core "a b" ≠ some (Except.ok "A ,B") ∧
    tokenize gtC2.core "a b" = some (Except.ok [" ", "a", " ", "b", " "]) ∧
    assocFind gtC2.core.onmatch_rules_lookup "b" = some [("a", [0])] ∧
    assocFind [("a", [0])] " " = (none : Option (List Nat)) := by
  refine ⟨by decide, by decide, by decide, by decide⟩

/-- C2, amended: in the configuration with tokens `a:[class1]`,
`b:[class2]`, `' ':[wb]`, rules `a → A`, `b → B`, `' ' → ' '`, on-match rule
`<class1> + <class2> → ","`, whitespace default `' '`, consolidate off,
`transliterate("a b")` returns exactly `"A B"` (the on-match rule does not
fire across the interior whitespace token), while `transliterate("ab")`
returns `"A,B"` (the comma does appear when the class-1 token directly
precedes the class-2 token, as in the repository's own tests). -/
theorem transliterate_c2_value :
    transliterate gtC2.core "a b" = some (Except.ok "A B") ∧
    transliterate gtC2.core "ab" = some (Except.ok "A,B") := by
  refine ⟨by decide, by decide⟩

/-- C3: the source's inner pair loop executes `break` on the first
empty-column pair, so the remaining pairs of the group are not examined:
for the equal-count rules `a → X`, `b → Y`, `a → Z` the code reports no
ambiguity (pair `(X, Z)` is never checked), while the check as the claim
words it (an empty intersection merely skips that pair) reports the
`(X, Z)` ambiguity. -/
theorem check_for_ambiguity_break_skips_pairs :
    check_for_ambiguity rulesC3 allTokensC3 tbcC3 = false ∧
    check_for_ambiguity_spec_skip rulesC3 allTokensC3 tbcC3 = true := by
  refine ⟨by decide, by decide⟩

/-- C7: with whitespace consolidation on (tokens `a` and `' '`, `' '` in the
whitespace class, default `' '`), `tokenize "a  a"` equals `tokenize "a a"`
with a single interior whitespace token, and `tokenize " a "` equals
`tokenize "a"`, the single `a` between the two sentinel whitespace
tokens. -/
theorem tokenize_consolidate_examples :
    tokenize gtAA.core "a  a" = tokenize gtAA.core "a a" ∧
    tokenize gtAA.core "a a" = some (Except.ok [" ", "a", " ", "a", " "]) ∧
    tokenize gtAA.core " a " = tokenize gtAA.core "a" ∧
    tokenize gtAA.core "a" = some (Except.ok [" ", "a", " "]) := by
  refine ⟨by decide, by decide, by decide, by decide⟩

/-- C8: a `transliterate` call (returning or raising) leaves the rule list,
the matching graph, the token-to-class mapping, the whitespace policy, the
on-match lookup — indeed the whole read-only core and the stored
`check_ambiguity` flag — of the instance unchanged; only the last-match
introspection record (`_rule_keys`, `_input_tokens`) changes. -/
theorem transliterate_frame (gt : GraphTransliterator) (input : String) :
    (transliterateSt gt input).1.core.rules = gt.core.rules ∧
    (transliterateSt gt input).1.core.graph = gt.core.graph ∧
    (transliterateSt gt input).1.core.tokens = gt.core.tokens ∧
    (transliterateSt gt input).1.core.whitespace = gt.core.whitespace ∧
    (transliterateSt gt input).1.core.onmatch_rules_lookup =
      gt.core.onmatch_rules_lookup ∧
    (transliterateSt gt input).1.core = gt.core ∧
    (transliterateSt gt input).1.check_ambiguity = gt.check_ambiguity := by
  have hcore : (transliterateSt gt input).1.core = gt.core ∧
      (transliterateSt gt input).1.check_ambiguity = gt.check_ambiguity := by
    unfold transliterateSt
    cases tokenize gt.core input with
    | none => exact ⟨rfl, rfl⟩
    | some r =>
        cases r with
        | error e => exact ⟨rfl, rfl⟩
        | ok toks => exact ⟨rfl, rfl⟩
  refine ⟨?_, ?_, ?_, ?_, ?_, hcore.1, hcore.2⟩ <;> rw [hcore.1]

/-- C10: when `pruned_of` is given a bare string, membership is Python
substring containment: a rule survives exactly when it was present and its
production is not a contiguous substring of the argument; in particular
`pruned_of "AB"` on rules with productions `A`, `B`, `AB` removes all
three. -/
theorem pruned_of_string_substring (gt gt' : GraphTransliterator) (s : String)
    (h : pruned_of gt (ProductionsArg.str s) = Except.ok gt') :
    (∀ r : TransliterationRule,
        r ∈ gt'.core.rules ↔
          r ∈ gt.core.rules ∧ ¬isSubstrOf r.production s = true) ∧
    productions gtC10.core = ["A", "B", "AB"] ∧
    (getGT (pruned_of gtC10 (ProductionsArg.str "AB"))).core.rules = [] := by
  refine ⟨?_, by decide, by decide⟩
  intro r
  simp only [pruned_of, mkGraphTransliterator] at h
  split at h
  · simp at h
  · simp only [Except.ok.injEq] at h
    rw [← h]
    simp only [buildGT, List.mem_filter, Bool.not_eq_true', prodMem]
    constructor
    · rintro ⟨hm, hb⟩
      exact ⟨hm, by simp [hb]⟩
    · rintro ⟨hm, hb⟩
      exact ⟨hm, by simpa using hb⟩

theorem pruned_of_string_substring_witness :
    (getGT (pruned_of gtC10 (ProductionsArg.str "AB"))).core.rules = [] :=
  (pruned_of_string_substring gtC10
    (getGT (pruned_of gtC10 (ProductionsArg.str "AB"))) "AB" (by decide)).2.2

/-- C6: with `ignore_errors` off, the tokenizer raises
`UnrecognizableInputToken` at the first character no declared token matches,
and the transliteration loop raises `NoMatchingRule` at the first position
where no rule matches; with `ignore_errors` on, the tokenizer skips forward
by exactly one character and resumes, and the loop skips forward by exactly
one token, omitting any output for the skipped unit.  The last four
conjuncts run the `a a → B2`, `b → b` configuration end to end: `"!"` and a
lone `"a"` raise with `ignore_errors` off and return (with the offending
unit's output omitted) with it on. -/
theorem error_handling_modes :
    (∀ (c : GTCore) (fuel : Nat) (ch : Char) (rest : List Char)
        (prev_ws : Bool) (acc : List Token),
        c.ignore_errors = false →
        tokMatch c.tokenizer_pattern (ch :: rest) = none →
        tokenizeAux c (fuel + 1) (ch :: rest) prev_ws acc =
          some (Except.error TErr.unrecognizableInputToken)) ∧
    (∀ (c : GTCore) (fuel : Nat) (ch : Char) (rest : List Char)
        (prev_ws : Bool) (acc : List Token),
        c.ignore_errors = true →
        tokMatch c.tokenizer_pattern (ch :: rest) = none →
        tokenizeAux c (fuel + 1) (ch :: rest) prev_ws acc =
          tokenizeAux c fuel rest prev_ws acc) ∧
    (∀ (c : GTCore) (toks : List Token) (fuel token_i : Nat)
        (rks : List Nat) (out : String),
        c.ignore_errors = false → token_i < toks.length - 1 →
        match_at_single c token_i toks = some none →
        translitLoop c toks (fuel + 1) token_i rks out =
          (rks, some (Except.error TErr.noMatchingRule))) ∧
    (∀ (c : GTCore) (toks : List Token) (fuel token_i : Nat)
        (rks : List Nat) (out : String),
        c.ignore_errors = true → token_i < toks.length - 1 →
        match_at_single c token_i toks = some none →
        translitLoop c toks (fuel + 1) token_i rks out =
          translitLoop c toks fuel (token_i + 1) rks out) ∧
    transliterate gtB.core "!" =
      some (Except.error TErr.unrecognizableInputToken) ∧
    transliterate gtB.core "a" = some (Except.error TErr.noMatchingRule) ∧
    transliterate gtBign.core "!" = some (Except.ok "") ∧
    transliterate gtBign.core "a" = some (Except.ok "") := by
  refine ⟨?_, ?_, ?_, ?_, by decide, by decide, by decide, by decide⟩
  · intro c fuel ch rest prev_ws acc hig hm
    simp only [tokenizeAux, hm, hig]
    simp
  · intro c fuel ch rest prev_ws acc hig hm
    simp only [tokenizeAux, hm, hig]
    simp
  · intro c toks fuel token_i rks out hig hlt hm
    simp only [translitLoop, if_pos hlt, hm, hig]
    simp
  · intro c toks fuel token_i rks out hig hlt hm
    simp only [translitLoop, if_pos hlt, hm, hig]
    simp

theorem error_handling_modes_witness :
    tokenizeAux gtB.core 1 ['!'] true [] =
      some (Except.error TErr.unrecognizableInputToken) :=
  error_handling_modes.1 gtB.core 0 '!' [] true [] (by decide) (by decide)

/-- C4, counterexample: pruning all productions yields an instance with zero
rules, but its `transliterate` does not raise `NoMatchingRule` on every
input even with `ignore_errors` off: the empty input tokenizes to the two
sentinels alone, the loop body never runs, and the empty output is
returned. -/
theorem pruned_all_empty_input_returns :
    gtC4.core.ignore_errors = false ∧
    (getGT (pruned_of gtC4
      (ProductionsArg.list (productions gtC4.core)))).core.rules = [] ∧
    transliterate (getGT (pruned_of gtC4
      (ProductionsArg.list (productions gtC4.core)))).core "" =
      some (Except.ok "") := by
  refine ⟨by decide, by decide, by decide⟩

/-- C4, amended: for every constructed instance, `pruned_of` applied to the
singleton list of a production that no rule produces returns the very same
instance (hence the same rule count and the same `transliterate` behaviour
on every input); and `pruned_of` applied to the list of all productions
returns an instance with zero rules whose `transliterate` (with
`ignore_errors` off) raises `NoMatchingRule` on every input whose
tokenization succeeds with at least one non-sentinel token. -/
theorem pruned_of_behavior (tokens : List (Token × List TokenClass))
    (rules : List TransliterationRule) (whitespace : WhitespaceRules)
    (onmatch_rules : List OnMatchRule) (ign chk : Bool)
    (gt : GraphTransliterator) (P : String)
    (hbuilt : mkGraphTransliterator tokens rules whitespace onmatch_rules ign
      chk [] [] none [] = Except.ok gt)
    (hP : P ∉ productions gt.core)
    (hign : ign = false) :
    pruned_of gt (ProductionsArg.list [P]) = Except.ok gt ∧
    ∃ gt2,
      pruned_of gt (ProductionsArg.list (productions gt.core)) =
        Except.ok gt2 ∧
      gt2.core.rules = [] ∧
      ∀ (s : String) (toks : List Token),
        tokenize gt2.core s = some (Except.ok toks) → 3 ≤ toks.length →
        transliterate gt2.core s =
          some (Except.error TErr.noMatchingRule) := by
  subst hign
  simp only [mkGraphTransliterator] at hbuilt
  split at hbuilt
  · simp at hbuilt
  · rename_i hcond
    simp only [Except.ok.injEq] at hbuilt
    subst hbuilt
    simp only [productions, buildGT] at hP
    constructor
    · have hfilter : List.filter
          (fun r => !prodMem (ProductionsArg.list [P]) r.production) rules
          = rules := by
        apply List.filter_eq_self.mpr
        intro r hr
        have hne : r.production ≠ P := by
          intro he
          exact hP (List.mem_map.mpr ⟨r, hr, he⟩)
        simp [prodMem, List.contains_eq_any_beq, hne]
      simp only [pruned_of, buildGT]
      rw [hfilter]
      simp only [mkGraphTransliterator, if_neg hcond]
      simp [buildGT]
    · have hfilter2 : List.filter
          (fun r => !prodMem
            (ProductionsArg.list (List.map (fun r => r.production) rules))
            r.production) rules = [] := by
        apply List.filter_eq_nil_iff.mpr
        intro r hr
        simp [prodMem, List.contains_eq_any_beq]
        exact ⟨r, hr, rfl⟩
      refine ⟨buildGT tokens [] whitespace onmatch_rules false chk [] [] none [],
        ?_, rfl, ?_⟩
      · simp only [pruned_of, buildGT, productions]
        rw [hfilter2]
        simp only [mkGraphTransliterator, check_for_ambiguity]
        simp [buildGT, tbcOrDefault]
      · intro s toks htok hlen
        have hms : ∀ (ti : Nat) (toks' : List Token),
            match_at_single
              (buildGT tokens [] whitespace onmatch_rules false chk [] []
                none []).core ti toks' = some none := fun ti toks' => rfl
        simp only [transliterate, htok]
        simp only [translitLoop]
        rw [if_pos (by omega : 1 < toks.length - 1), hms]
        simp [buildGT]

theorem pruned_of_behavior_witness :
    pruned_of gtC4 (ProductionsArg.list ["Q"]) = Except.ok gtC4 :=
  (pruned_of_behavior [("a", ["class1"]), (" ", ["wb"])]
    (sortRulesByCost [makeRule "A" [] [] ["a"] [] []])
    { default := " ", token_class := "wb", consolidate := true } []
    false true gtC4 "Q" (by decide) (by decide) rfl).1

/-- C5, counterexample: the dump format does not carry `ignore_errors`, and
`load` leaves it at the constructor default `False`, so for an instance
built with `ignore_errors=True` the round trip changes `transliterate`: on
input `"!"` the original returns `""` while the reloaded instance raises
`UnrecognizableInputToken`. -/
theorem load_dump_loses_ignore_errors :
    gtC5.core.ignore_errors = true ∧
    transliterate gtC5.core "!" = some (Except.ok "") ∧
    transliterate (getGT (load (dump gtC5))).core "!" =
      some (Except.error TErr.unrecognizableInputToken) := by
  refine ⟨by decide, by decide, by decide⟩

/-- C5, amended: `load` never re-runs ambiguity checking (it always
succeeds, with the `check_ambiguity` flag stored false), and for every
instance constructed with `ignore_errors=False`,
`load (dump x)` succeeds and transliterates every input exactly as `x`
does. -/
theorem load_dump_roundtrip (tokens : List (Token × List TokenClass))
    (rules : List TransliterationRule) (whitespace : WhitespaceRules)
    (onmatch_rules : List OnMatchRule) (chk : Bool)
    (gt : GraphTransliterator)
    (hbuilt : mkGraphTransliterator tokens rules whitespace onmatch_rules
      false chk [] [] none [] = Except.ok gt) :
    (∀ d : DumpData, ∃ g, load d = Except.ok g ∧ g.check_ambiguity = false) ∧
    ∃ gt2, load (dump gt) = Except.ok gt2 ∧
      ∀ s, transliterate gt2.core s = transliterate gt.core s := by
  constructor
  · intro d
    refine ⟨buildGT d.tokens d.rules d.whitespace d.onmatch_rules false false
      d.onmatch_rules_lookup d.tokens_by_class (some d.graph)
      d.tokenizer_pattern, ?_, rfl⟩
    simp [load, mkGraphTransliterator]
  · simp only [mkGraphTransliterator] at hbuilt
    split at hbuilt
    · simp at hbuilt
    · simp only [Except.ok.injEq] at hbuilt
      subst hbuilt
      refine ⟨⟨(buildGT tokens rules whitespace onmatch_rules false chk []
        [] none []).core, false, [], []⟩, ?_, fun s => rfl⟩
      simp only [load, dump, mkGraphTransliterator, buildGT, tbcOrDefault]
      by_cases homr : onmatch_rules.isEmpty
      · simp [homr]
      · simp [homr]

theorem load_dump_roundtrip_witness :
    ∃ gt2, load (dump gtC4) = Except.ok gt2 ∧
      ∀ s, transliterate gt2.core s = transliterate gtC4.core s :=
  (load_dump_roundtrip [("a", ["class1"]), (" ", ["wb"])]
    (sortRulesByCost [makeRule "A" [] [] ["a"] [] []])
    { default := " ", token_class := "wb", consolidate := true } []
    true gtC4 rfl).2

/-- Every child key stored anywhere in the graph strictly exceeds its
parent's key (the builder allocates nodes in path order, so this witnesses
the graph's acyclicity and gives a topological order). -/
def childKeysIncreasing (g : DirectedGraph) : Bool :=
  (List.range g.node.length).all fun i =>
    ((g.node.getD i default).rules_children.all fun ck => decide (i < ck)) &&
    ((g.node.getD i default).ordered_children.all fun p =>
      p.2.all fun ck => decide (i < ck))

/-- Weight of one stack entry: `B ^ (N - key)`. -/
def entryMeasure (B N : Nat) (e : Nat × Nat × Nat) : Nat := B ^ (N - e.1)

/-- Termination measure of the matcher's stack: the sum of its entries'
weights. -/
def stackMeasure (B N : Nat) (stack : List (Nat × Nat × Nat)) : Nat :=
  (stack.map (entryMeasure B N)).sum

theorem le_foldl_max {α : Type} (l : List α) (f : α → Nat) (init : Nat) :
    init ≤ l.foldl (fun a x => max a (f x)) init := by
  induction l generalizing init with
  | nil => exact le_refl _
  | cons x xs ih => exact le_trans (le_max_left _ _) (ih _)

theorem mem_le_foldl_max {α : Type} (l : List α) (f : α → Nat) (init : Nat)
    (x : α) (hx : x ∈ l) : f x ≤ l.foldl (fun a y => max a (f y)) init := by
  induction l generalizing init with
  | nil => cases hx
  | cons y ys ih =>
      cases hx with
      | head => exact le_trans (le_max_right _ _) (le_foldl_max ys f _)
      | tail _ h => exact ih _ h

/-- Any rule-children list of a node of the graph is no longer than
`maxChildLen`. -/
theorem rules_children_length_le (g : DirectedGraph) (n : GraphNode)
    (hn : n ∈ g.node) : n.rules_children.length ≤ maxChildLen g := by
  unfold maxChildLen
  exact le_trans (le_max_left _ _)
    (mem_le_foldl_max g.node
      (fun m => max m.rules_children.length
        (m.ordered_children.foldl (fun b p => max b p.2.length) 0)) 0 n hn)

/-- Any ordered-children list of a node of the graph is no longer than
`maxChildLen`. -/
theorem ordered_children_length_le (g : DirectedGraph) (n : GraphNode)
    (hn : n ∈ g.node) (p : Token × List Nat) (hp : p ∈ n.ordered_children) :
    p.2.length ≤ maxChildLen g := by
  unfold maxChildLen
  exact le_trans (le_trans
    (mem_le_foldl_max n.ordered_children (fun p => p.2.length) 0 p hp)
    (le_max_right n.rules_children.length _))
    (mem_le_foldl_max g.node
      (fun m => max m.rules_children.length
        (m.ordered_children.foldl (fun b p => max b p.2.length) 0)) 0 n hn)

theorem childKeysIncreasing_spec (g : DirectedGraph)
    (h : childKeysIncreasing g = true) (i : Nat) (hi : i < g.node.length) :
    (∀ ck ∈ (g.node.getD i default).rules_children, i < ck) ∧
    (∀ p ∈ (g.node.getD i default).ordered_children, ∀ ck ∈ p.2, i < ck) := by
  unfold childKeysIncreasing at h
  rw [List.all_eq_true] at h
  have hh := h i (List.mem_range.mpr hi)
  simp only [Bool.and_eq_true, List.all_eq_true, decide_eq_true_eq] at hh
  exact hh

theorem assocFind_mem {α β : Type} [BEq α] (l : List (α × β)) (k : α) (v : β)
    (h : assocFind l k = some v) : ∃ p ∈ l, p.2 = v := by
  unfold assocFind at h
  rw [Option.map_eq_some'] at h
  obtain ⟨p, hp, hv⟩ := h
  exact ⟨p, List.mem_of_find?_eq_some hp, hv⟩

theorem getD_mem_of_lt {α : Type} [Inhabited α] (l : List α) (i : Nat)
    (hi : i < l.length) : l.getD i default ∈ l := by
  rw [List.getD_eq_getElem l default hi]
  exact List.getElem_mem hi

/-- Popping the entry for node `k` and pushing its children at most trades
weight `B ^ (N - k)` for strictly less: every pushed child has a strictly
larger key (hence weight at most `B ^ (N - k - 1)`) and there are at most
`B - 1` of them. -/
theorem append_children_measure (g : DirectedGraph) (toks : List Token)
    (h : childKeysIncreasing g = true) (k ti : Nat)
    (rest : List (Nat × Nat × Nat)) :
    stackMeasure (maxChildLen g + 1) g.node.length
        (_append_children g toks k ti rest) + 1 ≤
      (maxChildLen g + 1) ^ (g.node.length - k) +
        stackMeasure (maxChildLen g + 1) g.node.length rest := by
  set B := maxChildLen g + 1 with hB
  set N := g.node.length with hN
  by_cases hk : k < N
  · have hmem : g.node.getD k default ∈ g.node := getD_mem_of_lt _ _ hk
    have hkeys := childKeysIncreasing_spec g h k hk
    have key : ∀ cs : List Nat, (∀ ck ∈ cs, k < ck) →
        cs.length ≤ maxChildLen g →
        stackMeasure B N ((cs.map fun ck => (ck, k, ti)) ++ rest) + 1 ≤
          B ^ (N - k) + stackMeasure B N rest := by
      intro cs hlt hlen
      have hsum : stackMeasure B N ((cs.map fun ck => (ck, k, ti)) ++ rest)
          = (cs.map fun ck => B ^ (N - ck)).sum + stackMeasure B N rest := by
        simp only [stackMeasure, List.map_append, List.sum_append,
          List.map_map]
        rfl
      rw [hsum]
      have hterm : ∀ x ∈ cs.map fun ck => B ^ (N - ck),
          x ≤ B ^ (N - k - 1) := by
        intro x hx
        obtain ⟨ck, hck, rfl⟩ := List.mem_map.mp hx
        apply Nat.pow_le_pow_right (by omega)
        have := hlt ck hck
        omega
      have hbd : (cs.map fun ck => B ^ (N - ck)).sum ≤
          cs.length * B ^ (N - k - 1) := by
        have := List.sum_le_card_nsmul _ _ hterm
        simpa [smul_eq_mul] using this
      have hpow : B ^ (N - k) = B * B ^ (N - k - 1) := by
        have h1 : N - k = (N - k - 1) + 1 := by omega
        rw [h1, pow_succ]
        exact Nat.mul_comm _ _
      have hone : 1 ≤ B ^ (N - k - 1) := Nat.one_le_pow _ _ (by omega)
      have hmul : cs.length * B ^ (N - k - 1) ≤
          (B - 1) * B ^ (N - k - 1) :=
        Nat.mul_le_mul_right _ (by omega)
      have hsplit : (B - 1) * B ^ (N - k - 1) + B ^ (N - k - 1) =
          B * B ^ (N - k - 1) := by
        have h4 : B - 1 + 1 = B := by omega
        calc (B - 1) * B ^ (N - k - 1) + B ^ (N - k - 1)
            = (B - 1 + 1) * B ^ (N - k - 1) := (Nat.succ_mul _ _).symm
          _ = B * B ^ (N - k - 1) := by rw [h4]
      omega
    simp only [_append_children]
    split
    · rename_i c cs hfind
      obtain ⟨p, hp, hpv⟩ := assocFind_mem _ _ _ hfind
      have hlt : ∀ ck ∈ c :: cs, k < ck := by
        intro ck hck
        exact hkeys.2 p hp ck (by rw [hpv]; exact hck)
      have hlen : (c :: cs).length ≤ maxChildLen g := by
        have := ordered_children_length_le g _ hmem p hp
        rw [hpv] at this
        exact this
      exact key _ hlt hlen
    · exact key _ hkeys.1 (rules_children_length_le g _ hmem)
  · have hdef : g.node.getD k default = default :=
      List.getD_eq_default _ _ (by omega)
    have hstep : _append_children g toks k ti rest = rest := by
      unfold _append_children
      rw [hdef]
      rfl
    have h1 : 1 ≤ B ^ (N - k) := Nat.one_le_pow _ _ (by omega)
    rw [hstep]
    omega

/-- Invariant of the graph under construction: every stored child key (token
or rule child) strictly exceeds its parent's key and is a valid node index. -/
def RawChildrenOrdered (g : DirectedGraph) : Prop :=
  ∀ i, i < g.node.length →
    (∀ p ∈ (g.node.getD i default).token_children,
      i < p.2 ∧ p.2 < g.node.length) ∧
    (∀ c ∈ (g.node.getD i default).rule_children,
      i < c ∧ c < g.node.length)

theorem updateNode_length (g : DirectedGraph) (i : Nat)
    (f : GraphNode → GraphNode) :
    (updateNode g i f).node.length = g.node.length := by
  unfold updateNode
  exact List.length_set g.node i _

theorem updateNode_getD_ne (g : DirectedGraph) (i j : Nat)
    (f : GraphNode → GraphNode) (hne : j ≠ i) :
    (updateNode g i f).node.getD j default = g.node.getD j default := by
  unfold updateNode
  rw [List.getD_eq_getElem?_getD, List.getD_eq_getElem?_getD,
    List.getElem?_set_ne (by omega)]
  rw [← List.getD_eq_getElem?_getD]

theorem updateNode_getD_eq (g : DirectedGraph) (i : Nat)
    (f : GraphNode → GraphNode) (hi : i < g.node.length) :
    (updateNode g i f).node.getD i default = f (g.node.getD i default) := by
  unfold updateNode
  rw [List.getD_eq_getElem?_getD, List.getElem?_set_self (by omega)]
  rfl

/-- Updates that do not touch a node's child lists preserve the builder
invariant. -/
theorem rawOrdered_update_preserve (g : DirectedGraph) (i : Nat)
    (f : GraphNode → GraphNode)
    (hf : ∀ n, (f n).token_children = n.token_children ∧
      (f n).rule_children = n.rule_children)
    (h : RawChildrenOrdered g) : RawChildrenOrdered (updateNode g i f) := by
  intro j hj
  rw [updateNode_length] at hj
  by_cases hji : j = i
  · subst hji
    rw [updateNode_getD_eq g j f hj, updateNode_length, (hf _).1, (hf _).2]
    exact h j hj
  · rw [updateNode_getD_ne g i j f hji, updateNode_length]
    exact h j hj

/-- Appending a node without children preserves the builder invariant. -/
theorem rawOrdered_append (g : DirectedGraph) (n : GraphNode)
    (hn : n.token_children = [] ∧ n.rule_children = [])
    (h : RawChildrenOrdered g) :
    RawChildrenOrdered { node := g.node ++ [n] } := by
  intro j hj
  simp only [List.length_append, List.length_cons, List.length_nil] at hj
  by_cases hlt : j < g.node.length
  · have he : (g.node ++ [n]).getD j default = g.node.getD j default := by
      rw [List.getD_eq_getElem?_getD, List.getD_eq_getElem?_getD,
        List.getElem?_append_left hlt]
    rw [he]
    obtain ⟨h1, h2⟩ := h j hlt
    constructor
    · intro p hp
      have := h1 p hp
      simp only [List.length_append, List.length_cons, List.length_nil]
      omega
    · intro c hc
      have := h2 c hc
      simp only [List.length_append, List.length_cons, List.length_nil]
      omega
  · have hj' : j = g.node.length := by omega
    subst hj'
    have he : (g.node ++ [n]).getD g.node.length default = n := by
      rw [List.getD_eq_getElem?_getD, List.getElem?_append_right (le_refl _)]
      simp
    rw [he, hn.1, hn.2]
    exact ⟨fun p hp => absurd hp (List.not_mem_nil p),
      fun c hc => absurd hc (List.not_mem_nil c)⟩

/-- Linking a fresh token child (with a strictly larger, in-range key) onto a
node preserves the builder invariant. -/
theorem rawOrdered_addTokenChild (g : DirectedGraph) (parent : Nat)
    (t : Token) (childKey : Nat) (hp : parent < g.node.length)
    (hpc : parent < childKey) (hcl : childKey < g.node.length)
    (h : RawChildrenOrdered g) :
    RawChildrenOrdered (updateNode g parent
      (fun n => { n with token_children := n.token_children ++ [(t, childKey)] })) := by
  intro j hj
  rw [updateNode_length] at hj
  by_cases hji : j = parent
  · subst hji
    rw [updateNode_getD_eq g j _ hj, updateNode_length]
    obtain ⟨h1, h2⟩ := h j hj
    refine ⟨?_, h2⟩
    intro p hpm
    simp only [List.mem_append, List.mem_singleton] at hpm
    cases hpm with
    | inl hold => exact h1 p hold
    | inr hnew => rw [hnew]; exact ⟨hpc, hcl⟩
  · rw [updateNode_getD_ne g parent j _ hji, updateNode_length]
    exact h j hj

/-- Linking a fresh rule child (with a strictly larger, in-range key) onto a
node preserves the builder invariant. -/
theorem rawOrdered_addRuleChild (g : DirectedGraph) (parent : Nat)
    (childKey : Nat) (hp : parent < g.node.length)
    (hpc : parent < childKey) (hcl : childKey < g.node.length)
    (h : RawChildrenOrdered g) :
    RawChildrenOrdered (updateNode g parent
      (fun n => { n with rule_children := n.rule_children ++ [childKey] })) := by
  intro j hj
  rw [updateNode_length] at hj
  by_cases hji : j = parent
  · subst hji
    rw [updateNode_getD_eq g j _ hj, updateNode_length]
    obtain ⟨h1, h2⟩ := h j hj
    refine ⟨h1, ?_⟩
    intro c hcm
    simp only [List.mem_append, List.mem_singleton] at hcm
    cases hcm with
    | inl hold => exact h2 c hold
    | inr hnew => rw [hnew]; exact ⟨hpc, hcl⟩
  · rw [updateNode_getD_ne g parent j _ hji, updateNode_length]
    exact h j hj

/-- Inserting a rule's token path preserves the builder invariant, returns an
in-range final node, and never shrinks the graph. -/
theorem addTokenPath_inv (toks : List Token) :
    ∀ (g : DirectedGraph) (parent : Nat) (cost : ℚ),
      RawChildrenOrdered g → parent < g.node.length →
      RawChildrenOrdered (addTokenPath g parent toks cost).1 ∧
      (addTokenPath g parent toks cost).2 <
        (addTokenPath g parent toks cost).1.node.length ∧
      g.node.length ≤ (addTokenPath g parent toks cost).1.node.length := by
  induction toks with
  | nil =>
      intro g parent cost hP hp
      exact ⟨hP, hp, le_refl _⟩
  | cons t rest ih =>
      intro g parent cost hP hp
      simp only [addTokenPath]
      cases hfind : assocFind (g.node.getD parent default).token_children t with
      | some child =>
          obtain ⟨p, hpm, hpv⟩ := assocFind_mem _ _ _ hfind
          have hbounds := (hP parent hp).1 p hpm
          have hchild : child < g.node.length := by
            rw [← hpv]; exact hbounds.2
          have hP' : RawChildrenOrdered
              (updateNode g child (fun n => { n with cost := min n.cost cost })) :=
            rawOrdered_update_preserve g child _ (fun n => ⟨rfl, rfl⟩) hP
          have := ih (updateNode g child (fun n => { n with cost := min n.cost cost }))
            child cost hP' (by rw [updateNode_length]; exact hchild)
          refine ⟨this.1, this.2.1, ?_⟩
          have hlen := this.2.2
          rw [updateNode_length] at hlen
          exact hlen
      | none =>
          have hP1 : RawChildrenOrdered
              { node := g.node ++ [newTokenNode t cost] } :=
            rawOrdered_append g _ ⟨rfl, rfl⟩ hP
          have hP2 : RawChildrenOrdered (updateNode
              { node := g.node ++ [newTokenNode t cost] } parent
              (fun n => { n with token_children :=
                n.token_children ++ [(t, g.node.length)] })) := by
            apply rawOrdered_addTokenChild _ parent t g.node.length
            · simp only [List.length_append, List.length_cons, List.length_nil]
              omega
            · exact hp
            · simp only [List.length_append, List.length_cons, List.length_nil]
              omega
            · exact hP1
          have hlen2 : (updateNode { node := g.node ++ [newTokenNode t cost] }
              parent (fun n => { n with token_children :=
                n.token_children ++ [(t, g.node.length)] })).node.length =
              g.node.length + 1 := by
            rw [updateNode_length]
            simp
          have hfin := ih _ g.node.length cost hP2 (by rw [hlen2]; omega)
          have hg : g.node.length ≤ (addTokenPath (updateNode
              { node := g.node ++ [newTokenNode t cost] } parent
              (fun n => { n with token_children :=
                n.token_children ++ [(t, g.node.length)] }))
              g.node.length rest cost).1.node.length := by
            have h5 := hfin.2.2
            omega
          exact ⟨hfin.1, hfin.2.1, hg⟩

/-- Inserting a whole rule preserves the builder invariant and never shrinks
the graph. -/
theorem insertRule_inv (g : DirectedGraph) (rule_key : Nat)
    (r : TransliterationRule) (h : RawChildrenOrdered g)
    (hroot : 0 < g.node.length) :
    RawChildrenOrdered (insertRule g rule_key r) ∧
    g.node.length ≤ (insertRule g rule_key r).node.length := by
  obtain ⟨h1, h2, h3⟩ := addTokenPath_inv r.tokens g 0 r.cost h hroot
  simp only [insertRule]
  set p := addTokenPath g 0 r.tokens r.cost with hp
  have hP1 : RawChildrenOrdered { node := p.1.node ++ [newRuleNode rule_key r] } :=
    rawOrdered_append p.1 _ ⟨rfl, rfl⟩ h1
  constructor
  · apply rawOrdered_addRuleChild _ p.2 p.1.node.length
    · simp only [List.length_append, List.length_cons, List.length_nil]
      omega
    · exact h2
    · simp only [List.length_append, List.length_cons, List.length_nil]
      omega
    · exact hP1
  · rw [updateNode_length]
    simp only [List.length_append, List.length_cons, List.length_nil]
    omega

/-- The rule-insertion fold preserves the builder invariant. -/
theorem foldl_insertRule_inv (rules : List (Nat × TransliterationRule)) :
    ∀ g : DirectedGraph, RawChildrenOrdered g → 0 < g.node.length →
      RawChildrenOrdered (rules.foldl (fun g p => insertRule g p.1 p.2) g) ∧
      0 < (rules.foldl (fun g p => insertRule g p.1 p.2) g).node.length := by
  induction rules with
  | nil => intro g h hroot; exact ⟨h, hroot⟩
  | cons x xs ih =>
      intro g h hroot
      have hx := insertRule_inv g x.1 x.2 h hroot
      exact ih (insertRule g x.1 x.2) hx.1 (by omega)

theorem mem_insertByCost (g : DirectedGraph) (k x : Nat) :
    ∀ l : List Nat, x ∈ insertByCost g k l → x = k ∨ x ∈ l := by
  intro l
  induction l with
  | nil =>
      intro hx
      simp only [insertByCost, List.mem_singleton] at hx
      exact Or.inl hx
  | cons y ys ih =>
      intro hx
      simp only [insertByCost] at hx
      split at hx
      · cases hx with
        | head => exact Or.inr (List.mem_cons_self _ _)
        | tail _ ht =>
            cases ih ht with
            | inl h1 => exact Or.inl h1
            | inr h2 => exact Or.inr (List.mem_cons_of_mem _ h2)
      · cases hx with
        | head => exact Or.inl rfl
        | tail _ ht => exact Or.inr ht

theorem mem_sortKeysByCost (g : DirectedGraph) (l : List Nat) (x : Nat)
    (hx : x ∈ sortKeysByCost g l) : x ∈ l := by
  unfold sortKeysByCost at hx
  suffices hgen : ∀ (l : List Nat) (acc : List Nat),
      x ∈ l.foldl (fun acc k => insertByCost g k acc) acc →
      x ∈ acc ∨ x ∈ l by
    cases hgen l [] hx with
    | inl h1 => cases h1
    | inr h2 => exact h2
  intro l
  induction l with
  | nil => intro acc h; exact Or.inl h
  | cons y ys ih =>
      intro acc h
      cases ih (insertByCost g y acc) h with
      | inl h1 =>
          cases mem_insertByCost g y x acc h1 with
          | inl h2 => exact Or.inr (h2 ▸ List.mem_cons_self y ys)
          | inr h3 => exact Or.inl h3
      | inr h2 => exact Or.inr (List.mem_cons_of_mem y h2)

/-- The ordering pass turns the builder invariant into strictly increasing
child keys in the final `ordered_children`/`rules_children` lists. -/
theorem orderChildren_childKeysIncreasing (g : DirectedGraph)
    (h : RawChildrenOrdered g) :
    childKeysIncreasing (orderChildren g) = true := by
  unfold childKeysIncreasing
  rw [List.all_eq_true]
  intro i hi
  rw [List.mem_range] at hi
  have hlen : (orderChildren g).node.length = g.node.length := by
    simp [orderChildren]
  rw [hlen] at hi
  have hnode : (orderChildren g).node.getD i default =
      (fun n => { n with
        rules_children := sortKeysByCost g n.rule_children
        ordered_children := n.token_children.map
          (fun p => (p.1, sortKeysByCost g (p.2 :: n.rule_children))) })
      (g.node.getD i default) := by
    simp only [orderChildren]
    rw [List.getD_eq_getElem?_getD, List.getElem?_map,
      List.getElem?_eq_getElem hi]
    rw [List.getD_eq_getElem g.node default hi]
    rfl
  rw [hnode]
  obtain ⟨h1, h2⟩ := h i hi
  simp only [Bool.and_eq_true, List.all_eq_true, decide_eq_true_eq]
  constructor
  · intro ck hck
    exact (h2 ck (mem_sortKeysByCost g _ ck hck)).1
  · intro p hp ck hck
    obtain ⟨q, hq, hqe⟩ := List.mem_map.mp hp
    have hck' : ck ∈ q.2 :: (g.node.getD i default).rule_children := by
      apply mem_sortKeysByCost g
      rw [← hqe] at hck
      exact hck
    cases hck' with
    | head => exact (h1 q hq).1
    | tail _ ht => exact (h2 ck ht).1

/-- The graph built by `_graph_from` always has strictly increasing child
keys: nodes are allocated in path order, so every stored child key exceeds
its parent's. -/
theorem graph_from_childKeysIncreasing (rules : List TransliterationRule) :
    childKeysIncreasing (_graph_from rules) = true := by
  unfold _graph_from
  apply orderChildren_childKeysIncreasing
  have hinit : RawChildrenOrdered { node := [{ ntype := NodeType.start }] } := by
    intro i hi
    simp only [List.length_cons, List.length_nil] at hi
    have hi0 : i = 0 := by omega
    subst hi0
    constructor
    · intro p hp
      cases hp
    · intro c hc
      cases hc
  exact (foldl_insertRule_inv rules.enum _ hinit (by simp)).1

/-- The matcher's loop returns a result (never exhausts its fuel) whenever
the fuel exceeds the stack's measure. -/
theorem matchLoop_total (tks : List (Token × List TokenClass))
    (g : DirectedGraph) (toks : List Token) (match_all : Bool)
    (h : childKeysIncreasing g = true) :
    ∀ (fuel : Nat) (stack : List (Nat × Nat × Nat)) (found : List Nat),
      stackMeasure (maxChildLen g + 1) g.node.length stack < fuel →
      matchLoop tks g toks match_all fuel stack found ≠ none := by
  intro fuel
  induction fuel with
  | zero => intro stack found hm; omega
  | succ fuel ih =>
      intro stack found hm
      cases stack with
      | nil => simp [matchLoop]
      | cons e rest =>
          obtain ⟨k, pk, ti⟩ := e
          have hone : 1 ≤ (maxChildLen g + 1) ^ (g.node.length - k) :=
            Nat.one_le_pow _ _ (by omega)
          have hm' : stackMeasure (maxChildLen g + 1) g.node.length
              ((k, pk, ti) :: rest) =
              (maxChildLen g + 1) ^ (g.node.length - k) +
                stackMeasure (maxChildLen g + 1) g.node.length rest := by
            simp [stackMeasure, entryMeasure]
          simp only [matchLoop]
          split
          · split
            · exact ih rest _ (by omega)
            · simp
          · apply ih
            have happ := append_children_measure g toks h k
              (if ti < toks.length - 1 then ti + 1 else ti) rest
            omega

/-- C9: `match_at` terminates for every finite token list and every starting
position.  Every graph produced by the builder has strictly increasing child
keys (it is finite and acyclic, nodes being allocated in path order), and on
any such graph the stack-driven loop with the default fuel always reaches an
empty stack or a return, never the fuel-exhaustion marker. -/
theorem match_at_terminates :
    (∀ rules : List TransliterationRule,
        childKeysIncreasing (_graph_from rules) = true) ∧
    ∀ c : GTCore, childKeysIncreasing c.graph = true →
      ∀ (token_i : Nat) (tokens : List Token) (match_all : Bool),
        match_at c token_i tokens match_all ≠ none := by
  refine ⟨graph_from_childKeysIncreasing, ?_⟩
  intro c h token_i tokens match_all
  unfold match_at fuelBound
  apply matchLoop_total _ _ _ _ h
  have happ := append_children_measure c.graph tokens h 0 token_i []
  have hz : stackMeasure (maxChildLen c.graph + 1) c.graph.node.length [] =
      0 := rfl
  rw [hz] at happ
  have hpow : (maxChildLen c.graph + 1) ^ (c.graph.node.length - 0) =
      (maxChildLen c.graph + 1) ^ c.graph.node.length := by norm_num
  omega

theorem match_at_terminates_witness :
    match_at gtAA.core 2 [" ", "a", "a", " "] false ≠ none :=
  match_at_terminates.2 gtAA.core (by decide) 2 [" ", "a", "a", " "] false

end Gtr
